import Mathlib

/-!
Shallow embedding of the ship-Simulation repository (src/main.py): the
time-weighted shortest-path router (fastest_path), the ship kinematics state
machine (Ship.set_path / Ship.update), and the driver's graph construction and
agent setup (main), together with proofs about them.

Floating-point arithmetic of the source is modelled over the reals.  An IEEE
NaN position (which arises in Ship.update from numpy's 0/0 division when a leg
has zero length) is modelled by the value none of type Option Pos.  Python
comparisons involving NaN are false, and Python's min(speed, NaN) returns
speed; the update function mirrors both facts explicitly.
-/

namespace Sim

abbrev Pos := ℝ × ℝ

/-- Euclidean norm of a 2-D vector, as computed by np.linalg.norm. -/
noncomputable def n2 (u : Pos) : ℝ := Real.sqrt (u.1 ^ 2 + u.2 ^ 2)

/-- Euclidean distance np.linalg.norm(q - p) between two positions. -/
noncomputable def dist2 (p q : Pos) : ℝ := n2 (q - p)

/-- Metric kinds logged through Cul.log_data by the Ship state machine. -/
inductive Metric where
  | route_enter
  | distance_traveled
  | route_exit
  deriving DecidableEq

/-- One row inserted by Cul.log_data: ship name, metric, value, position
snapshot (none modelling a NaN position). -/
structure Event where
  name : String
  metric : Metric
  value : ℝ
  pos : Option Pos

/-- State of class Ship.  The position is an Option: some p is an ordinary
position, none models the NaN vector produced by the unguarded 0/0 division
in Ship.update. -/
structure Ship where
  name : String
  pos : Option Pos
  speed : ℝ
  path : List Pos
  target_index : ℕ
  target : Option Pos

/-- Ship.__init__(name, start_pos, cul_logger, speed). -/
def mkShip (name : String) (start : Pos) (speed : ℝ) : Ship :=
  ⟨name, some start, speed, [], 0, none⟩

/-- Ship.set_path: rejects sequences of fewer than two points, otherwise sets
target_index = 1, target = path[1], and logs one route_enter event. -/
def set_path (s : Ship) (path : List Pos) : Ship × List Event :=
  if path.length < 2 then (s, [])
  else ({ s with path := path, target_index := 1, target := path.get? 1 },
        [⟨s.name, Metric.route_enter, 0, s.pos⟩])

open Classical in
/-- Ship.update.  The branch on dist2 p t = 0 mirrors numpy: direction/0 is
(0/0, 0/0) = (NaN, NaN), and pos += NaN * step makes the position NaN (none);
afterwards the arrival check dist <= speed still runs with dist = 0.  When the
position is already NaN, dist is NaN, Python's min(speed, NaN) evaluates to
speed, and NaN <= speed is false, so no arrival ever happens again. -/
noncomputable def update (s : Ship) : Ship × List Event :=
  match s.target with
  | none => (s, [])
  | some t =>
    match s.pos with
    | none =>
      (s, [⟨s.name, Metric.distance_traveled, s.speed, none⟩])
    | some p =>
      let dist := dist2 p t
      let step := min s.speed dist
      let newpos : Option Pos :=
        if dist = 0 then none else some (p + (step / dist) • (t - p))
      let s1 : Ship := { s with pos := newpos }
      let ev1 : Event := ⟨s.name, Metric.distance_traveled, step, newpos⟩
      if dist ≤ s.speed then
        let ev2 : Event := ⟨s.name, Metric.route_exit, dist, newpos⟩
        if h : s.target_index + 1 < s.path.length then
          ({ s1 with target_index := s.target_index + 1,
                     target := some (s.path.get ⟨s.target_index + 1, h⟩) },
           [ev1, ev2, ⟨s.name, Metric.route_enter, 0, newpos⟩])
        else
          ({ s1 with target_index := s.target_index + 1, target := none },
           [ev1, ev2])
      else (s1, [ev1])

/-- Iterated ticks, accumulating emitted events in order. -/
noncomputable def tickN : ℕ → Ship → Ship × List Event
  | 0, s => (s, [])
  | n + 1, s =>
    let r1 := update s
    let r2 := tickN n r1.1
    (r2.1, r1.2 ++ r2.2)

/-- Per-leg tick counts: ceil(leg length / speed) for every leg of a
coordinate path. -/
noncomputable def ceilList (v : ℝ) : List Pos → List ℕ
  | a :: b :: r => ⌈dist2 a b / v⌉₊ :: ceilList v (b :: r)
  | _ => []

/-- Total number of ticks a ship needs for a coordinate path: the sum of the
per-leg tick counts. -/
noncomputable def sumCeil (v : ℝ) (l : List Pos) : ℕ := (ceilList v l).sum

/-- Metric kinds emitted by the ticks that walk a coordinate path to its end
(excluding the initial route_enter logged by set_path). -/
noncomputable def runKinds (v : ℝ) : List Pos → List Metric
  | a :: b :: r =>
    (List.replicate ⌈dist2 a b / v⌉₊ Metric.distance_traveled ++ [Metric.route_exit]) ++
      (match r with
       | [] => []
       | _ :: _ => Metric.route_enter :: runKinds v (b :: r))
  | _ => []

abbrev Graph := List (String × List String)

/-- graph.get(node, []) on the driver's adjacency dict. -/
def gget (g : Graph) (n : String) : List String := (List.lookup n g).getD []

/-- graph.setdefault(a, []).append(b): append b to the adjacency list of a,
creating the binding at the end when a has none. -/
def addEdge (g : Graph) (a b : String) : Graph :=
  match g with
  | [] => [(a, [b])]
  | (k, vs) :: rest => if k = a then (k, vs ++ [b]) :: rest else (k, vs) :: addEdge rest a b

/-- Adjacency construction of main: every route (a, b) is recorded in both
directions. -/
def buildGraph (routes : List (String × String)) : Graph :=
  routes.foldl (fun g ab => addEdge (addEdge g ab.1 ab.2) ab.2 ab.1) []

/-- Heap entries (total_time, node, path) of fastest_path. -/
abbrev Entry := ℝ × String × List String

/-- Python tuple comparison on heap entries (lexicographic on time, then node
name, then path). -/
def entLt (x y : Entry) : Prop :=
  x.1 < y.1 ∨ (x.1 = y.1 ∧ (x.2.1 < y.2.1 ∨ (x.2.1 = y.2.1 ∧ x.2.2 < y.2.2)))

open Classical in
/-- heapq.heappop on the queue modelled as a multiset: remove and return the
least entry in the tuple order. -/
noncomputable def popMin : List Entry → Option (Entry × List Entry)
  | [] => none
  | e :: es =>
    match popMin es with
    | none => some (e, [])
    | some (m, rest) => if entLt m e then some (m, e :: rest) else some (e, es)

/-- The test `node in visited and visited[node] <= total_time`. -/
def visCheck (visited : List (String × ℝ)) (node : String) (t : ℝ) : Prop :=
  ∃ v, List.lookup node visited = some v ∧ v ≤ t

open Classical in
/-- The while-loop of fastest_path: pop the heap minimum, return its path when
the popped node is the goal, drop stale entries (lazy deletion), otherwise
record the node's time and push every neighbor extension.  Fuel bounds the
iterations (fpFuel is proved sufficient): none means fuel ran out, some none
that the queue emptied, some (some path) that the goal was popped. -/
noncomputable def fpLoop (g : Graph) (posf : String → Pos) (speed : ℝ) (goal : String) :
    ℕ → List Entry → List (String × ℝ) → Option (Option (List String))
  | 0, _, _ => none
  | fuel + 1, queue, visited =>
    match popMin queue with
    | none => some none
    | some ((t, node, p), rest) =>
      if node = goal then some (some p)
      else if visCheck visited node t then
        fpLoop g posf speed goal fuel rest visited
      else
        fpLoop g posf speed goal fuel
          (((gget g node).map (fun nb =>
              (t + dist2 (posf node) (posf nb) / speed, nb, p ++ [nb]))) ++ rest)
          ((node, t) :: visited)

/-- Every node a queue entry can ever carry: the start node and every node of
an adjacency list. -/
def cands (g : Graph) (start : String) : Finset String :=
  insert start (g.flatMap (fun e => e.2)).toFinset

/-- Fuel that provably outlasts the loop. -/
def fpFuel (g : Graph) (start : String) : ℕ :=
  (cands g start).sum (fun n => (gget g n).length + 1) + 2

/-- fastest_path(graph, start, end, positions, ship_speed). -/
noncomputable def fastest_path (g : Graph) (start goal : String) (posf : String → Pos)
    (speed : ℝ) : Option (List String) :=
  (fpLoop g posf speed goal (fpFuel g start) [(0, start, [start])] []).getD none

/-- Total travel time of a waypoint-name path: the sum over consecutive pairs
of Euclidean distance divided by the ship speed. -/
noncomputable def pathTime (posf : String → Pos) (speed : ℝ) : List String → ℝ
  | a :: b :: r => dist2 (posf a) (posf b) / speed + pathTime posf speed (b :: r)
  | _ => 0

/-- An edge-path of the adjacency dict from s to e. -/
def IsRoute (g : Graph) (s e : String) (p : List String) : Prop :=
  p.head? = some s ∧ p.getLast? = some e ∧ List.Chain' (fun a b => b ∈ gget g a) p

/-- Reachability by an edge-path. -/
def Connected (g : Graph) (s e : String) : Prop := ∃ p, IsRoute g s e p

/-- Configuration record of one ship (name, start, end, speed). -/
structure ShipData where
  name : String
  start : String
  dest : String
  speed : ℝ

/-- Per-agent setup step of main: construct the Ship, route it with the
ship's own speed, and call set_path when a truthy (nonempty) path came back;
otherwise the agent is dropped. -/
noncomputable def mkActive (g : Graph) (planets : String → Pos) (d : ShipData) : Option Ship :=
  match fastest_path g d.start d.dest planets d.speed with
  | some p =>
    if p.isEmpty then none
    else some (set_path (mkShip d.name (planets d.start) d.speed) (p.map planets)).1
  | none => none

/-- The ships list built by main's setup loop. -/
noncomputable def setupShips (g : Graph) (planets : String → Pos)
    (data : List ShipData) : List Ship :=
  data.foldl (fun ships d =>
    match fastest_path g d.start d.dest planets d.speed with
    | some p =>
      if p.isEmpty then ships
      else ships ++ [(set_path (mkShip d.name (planets d.start) d.speed) (p.map planets)).1]
    | none => ships) []

/-- One animation frame: every active ship is ticked once, in list order. -/
noncomputable def frame (ships : List Ship) : List Ship × List Event :=
  (ships.map (fun s => (update s).1), ships.flatMap (fun s => (update s).2))

/-- Weight of the directed step a -> b as computed in the loop body. -/
noncomputable def wt (posf : String → Pos) (v : ℝ) (a b : String) : ℝ :=
  dist2 (posf a) (posf b) / v

/-- Well-formedness of a queue entry: its path runs from src to its node along
graph edges and its key is the path's total time. -/
def EntOK (g : Graph) (posf : String → Pos) (v : ℝ) (src : String) (x : Entry) : Prop :=
  x.2.2.head? = some src ∧ x.2.2.getLast? = some x.2.1 ∧
    List.Chain' (fun a b => b ∈ gget g a) x.2.2 ∧ pathTime posf v x.2.2 = x.1

/-- The start node is accounted for: either already visited with a recorded
time of at most 0 or present in the queue with a key of at most 0. -/
def StartOK (Q : List Entry) (V : List (String × ℝ)) (src : String) : Prop :=
  (∃ w, List.lookup src V = some w ∧ w ≤ 0) ∨ (∃ x ∈ Q, x.2.1 = src ∧ x.1 ≤ 0)

/-- Every visited node's out-edges are relaxed: each neighbor is visited or
queued with a time no worse than the time through this node. -/
def RelaxOK (g : Graph) (posf : String → Pos) (v : ℝ)
    (Q : List Entry) (V : List (String × ℝ)) : Prop :=
  ∀ n w, List.lookup n V = some w → ∀ nb ∈ gget g n,
    (∃ w2, List.lookup nb V = some w2 ∧ w2 ≤ w + wt posf v n nb) ∨
    (∃ x ∈ Q, x.2.1 = nb ∧ x.1 ≤ w + wt posf v n nb)

/-- Visited times never exceed queued keys. -/
def FrontOK (Q : List Entry) (V : List (String × ℝ)) : Prop :=
  ∀ n w, List.lookup n V = some w → ∀ x ∈ Q, w ≤ x.1

/-- Nodes carried by queue entries come from the candidate set. -/
def NodesOK (g : Graph) (src : String) (Q : List Entry) : Prop :=
  ∀ x ∈ Q, x.2.1 ∈ cands g src

/-- The full loop invariant of fastest_path. -/
def Inv (g : Graph) (posf : String → Pos) (v : ℝ) (src dst : String)
    (Q : List Entry) (V : List (String × ℝ)) : Prop :=
  (∀ x ∈ Q, EntOK g posf v src x) ∧ StartOK Q V src ∧ RelaxOK g posf v Q V ∧
    List.lookup dst V = none ∧ FrontOK Q V ∧ NodesOK g src Q

/-- Termination measure of the loop: queue length plus the budget of the not
yet visited candidate nodes. -/
def measureQV (g : Graph) (src : String)
    (Q : List Entry) (V : List (String × ℝ)) : ℕ :=
  Q.length + ((cands g src).filter
    (fun n => (List.lookup n V).isNone)).sum (fun n => (gget g n).length + 1)

theorem n2_nonneg (u : Pos) : 0 ≤ n2 u := Real.sqrt_nonneg _

theorem dist2_nonneg (p q : Pos) : 0 ≤ dist2 p q := Real.sqrt_nonneg _

theorem n2_eq_zero {u : Pos} : n2 u = 0 ↔ u = 0 := by
  constructor
  · intro h
    have h' : u.1 ^ 2 + u.2 ^ 2 ≤ 0 := by
      by_contra hpos
      push_neg at hpos
      have := Real.sqrt_pos.mpr hpos
      rw [n2] at h
      linarith
    have h1 : u.1 ^ 2 = 0 ∧ u.2 ^ 2 = 0 := by
      constructor <;> nlinarith [sq_nonneg u.1, sq_nonneg u.2]
    have := pow_eq_zero_iff (two_ne_zero) |>.mp h1.1
    have := pow_eq_zero_iff (two_ne_zero) |>.mp h1.2
    exact Prod.ext (by assumption) (by assumption)
  · rintro rfl
    simp [n2]

theorem dist2_eq_zero {p q : Pos} : dist2 p q = 0 ↔ p = q := by
  rw [dist2, n2_eq_zero, sub_eq_zero]
  exact ⟨fun h => h.symm, fun h => h.symm⟩

theorem dist2_pos {p q : Pos} (h : p ≠ q) : 0 < dist2 p q :=
  lt_of_le_of_ne (dist2_nonneg p q) (fun h0 => h (dist2_eq_zero.mp h0.symm))

theorem n2_smul (c : ℝ) (u : Pos) : n2 (c • u) = |c| * n2 u := by
  rw [n2, n2, Prod.smul_fst, Prod.smul_snd, smul_eq_mul, smul_eq_mul]
  rw [show (c * u.1) ^ 2 + (c * u.2) ^ 2 = c ^ 2 * (u.1 ^ 2 + u.2 ^ 2) by ring]
  rw [Real.sqrt_mul (sq_nonneg c), Real.sqrt_sq_eq_abs]

theorem tickN_succ (n : ℕ) (s : Ship) :
    tickN (n + 1) s = ((tickN n (update s).1).1, (update s).2 ++ (tickN n (update s).1).2) := rfl

theorem tickN_add (a b : ℕ) (s : Ship) :
    tickN (a + b) s = ((tickN b (tickN a s).1).1, (tickN a s).2 ++ (tickN b (tickN a s).1).2) := by
  induction a generalizing s with
  | zero => simp [tickN]
  | succ k ih =>
    rw [show k + 1 + b = (k + b) + 1 by omega]
    rw [tickN_succ, tickN_succ, ih]
    simp [List.append_assoc]

theorem update_idle {s : Ship} (h : s.target = none) : update s = (s, []) := by
  rw [update, h]

theorem tickN_idle {s : Ship} (h : s.target = none) (n : ℕ) : tickN n s = (s, []) := by
  induction n with
  | zero => rfl
  | succ k ih => rw [tickN_succ, update_idle h]; simp [ih]

theorem dist2_step {p t : Pos} {c : ℝ} (hc1 : c ≤ 1) :
    dist2 (p + c • (t - p)) t = (1 - c) * dist2 p t := by
  have hrw : t - (p + c • (t - p)) = (1 - c) • (t - p) := by
    rw [sub_smul, one_smul]; abel
  rw [dist2, hrw, n2_smul, abs_of_nonneg (by linarith), dist2]

theorem update_far {s : Ship} {p t : Pos} (hp : s.pos = some p) (ht : s.target = some t)
    (hv : 0 ≤ s.speed) (hfar : ¬ dist2 p t ≤ s.speed) :
    update s = ({ s with pos := some (p + (s.speed / dist2 p t) • (t - p)) },
      [⟨s.name, Metric.distance_traveled, s.speed,
        some (p + (s.speed / dist2 p t) • (t - p))⟩]) := by
  have hlt : s.speed < dist2 p t := not_le.mp hfar
  have hd0 : dist2 p t ≠ 0 := by intro h; rw [h] at hlt; linarith
  have hmin : min s.speed (dist2 p t) = s.speed := min_eq_left (le_of_lt hlt)
  unfold update
  rw [ht, hp]
  simp only [hmin, if_neg hd0, if_neg hfar]

theorem update_arrive_mid {s : Ship} {p t : Pos} (hp : s.pos = some p) (ht : s.target = some t)
    (hne : p ≠ t) (hnear : dist2 p t ≤ s.speed) (hlt : s.target_index + 1 < s.path.length) :
    update s = ({ s with
        pos := some t,
        target_index := s.target_index + 1,
        target := some (s.path.get ⟨s.target_index + 1, hlt⟩) },
      [⟨s.name, Metric.distance_traveled, dist2 p t, some t⟩,
       ⟨s.name, Metric.route_exit, dist2 p t, some t⟩,
       ⟨s.name, Metric.route_enter, 0, some t⟩]) := by
  have hd0 : dist2 p t ≠ 0 := ne_of_gt (dist2_pos hne)
  have hmin : min s.speed (dist2 p t) = dist2 p t := min_eq_right hnear
  have hT : p + (dist2 p t / dist2 p t) • (t - p) = t := by
    rw [div_self hd0, one_smul]; abel
  unfold update
  rw [ht, hp]
  simp only [hmin, if_neg hd0, if_pos hnear, dif_pos hlt, hT]

theorem update_arrive_end {s : Ship} {p t : Pos} (hp : s.pos = some p) (ht : s.target = some t)
    (hne : p ≠ t) (hnear : dist2 p t ≤ s.speed) (hge : ¬ s.target_index + 1 < s.path.length) :
    update s = ({ s with
        pos := some t,
        target_index := s.target_index + 1,
        target := none },
      [⟨s.name, Metric.distance_traveled, dist2 p t, some t⟩,
       ⟨s.name, Metric.route_exit, dist2 p t, some t⟩]) := by
  have hd0 : dist2 p t ≠ 0 := ne_of_gt (dist2_pos hne)
  have hmin : min s.speed (dist2 p t) = dist2 p t := min_eq_right hnear
  have hT : p + (dist2 p t / dist2 p t) • (t - p) = t := by
    rw [div_self hd0, one_smul]; abel
  unfold update
  rw [ht, hp]
  simp only [hmin, if_neg hd0, if_pos hnear, dif_neg hge, hT]

theorem leg_run {v : ℝ} (hv : 0 < v) :
    ∀ (k : ℕ) (p t : Pos) (S : Ship), S.speed = v → S.pos = some p → S.target = some t →
      p ≠ t → ⌈dist2 p t / v⌉₊ = k →
      (tickN k S).1 = { S with
          pos := some t,
          target_index := S.target_index + 1,
          target := S.path.get? (S.target_index + 1) } ∧
      (tickN k S).2.map Event.metric =
        List.replicate k Metric.distance_traveled ++ [Metric.route_exit] ++
          (if S.target_index + 1 < S.path.length then [Metric.route_enter] else []) := by
  intro k
  induction k with
  | zero =>
    intro p t S hsp hp ht hne hceil
    exfalso
    have : 0 < ⌈dist2 p t / v⌉₊ := Nat.ceil_pos.mpr (div_pos (dist2_pos hne) hv)
    omega
  | succ k ih =>
    intro p t S hsp hp ht hne hceil
    by_cases hnear : dist2 p t ≤ v
    · have hk0 : k = 0 := by
        have h1 : ⌈dist2 p t / v⌉₊ ≤ 1 := by
          rw [Nat.ceil_le]
          push_cast
          exact (div_le_one hv).mpr hnear
        omega
      subst hk0
      rw [tickN_succ]
      by_cases hlt : S.target_index + 1 < S.path.length
      · rw [update_arrive_mid hp ht hne (hsp ▸ hnear) hlt]
        refine ⟨?_, ?_⟩
        · simp [tickN, List.get?_eq_get hlt]
        · simp [tickN, if_pos hlt]
      · rw [update_arrive_end hp ht hne (hsp ▸ hnear) hlt]
        refine ⟨?_, ?_⟩
        · simp only [tickN, List.get?_eq_none.mpr (Nat.le_of_not_lt hlt)]
        · simp [tickN, if_neg hlt]
    · have hdpos : 0 < dist2 p t := dist2_pos hne
      have hgtv : v < dist2 p t := not_le.mp hnear
      have hfar' : ¬ dist2 p t ≤ S.speed := by rw [hsp]; exact hnear
      rw [tickN_succ, update_far hp ht (by rw [hsp]; exact le_of_lt hv) hfar']
      have hc1 : S.speed / dist2 p t ≤ 1 := by
        rw [hsp]; exact (div_le_one hdpos).mpr (le_of_lt hgtv)
      have hd' : dist2 (p + (S.speed / dist2 p t) • (t - p)) t = dist2 p t - v := by
        rw [dist2_step hc1, hsp]
        field_simp
      have hne' : p + (S.speed / dist2 p t) • (t - p) ≠ t := by
        intro h
        rw [h, dist2_eq_zero.mpr rfl] at hd'
        linarith
      have hceil' : ⌈dist2 (p + (S.speed / dist2 p t) • (t - p)) t / v⌉₊ = k := by
        rw [hd']
        have hy : (0:ℝ) ≤ (dist2 p t - v) / v := div_nonneg (by linarith) (le_of_lt hv)
        have hsum : (dist2 p t - v) / v + 1 = dist2 p t / v := by field_simp
        have hstep := Nat.ceil_add_one hy
        rw [hsum] at hstep
        omega
      obtain ⟨ih1, ih2⟩ := ih (p + (S.speed / dist2 p t) • (t - p)) t
        ({ S with pos := some (p + (S.speed / dist2 p t) • (t - p)) })
        hsp rfl ht hne' hceil'
      refine ⟨?_, ?_⟩
      · rw [ih1]
      · simp only [List.map_append, List.map_cons, List.map_nil, ih2]
        simp [List.replicate_succ]

theorem run_to_idle {v : ℝ} (hv : 0 < v) :
    ∀ (tail : List Pos) (p : Pos) (S : Ship), S.speed = v → S.pos = some p →
      S.path.drop S.target_index = tail → S.target = S.path.get? S.target_index →
      List.Chain' (fun a b => a ≠ b) (p :: tail) →
      (tickN (sumCeil v (p :: tail)) S).1.target = none ∧
      (tickN (sumCeil v (p :: tail)) S).1.pos = (p :: tail).getLast? ∧
      (tickN (sumCeil v (p :: tail)) S).2.map Event.metric = runKinds v (p :: tail) := by
  intro tail
  induction tail with
  | nil =>
    intro p S hsp hp hdrop ht hchain
    have hlen : S.path.length ≤ S.target_index := by
      have := congrArg List.length hdrop
      simp only [List.length_drop, List.length_nil] at this
      omega
    have htn : S.target = none := by
      rw [ht, List.get?_eq_none.mpr hlen]
    have h0 : sumCeil v [p] = 0 := by simp [sumCeil, ceilList]
    rw [h0]
    refine ⟨htn, ?_, ?_⟩
    · simpa [tickN] using hp
    · simp [tickN, runKinds]
  | cons t' rest ih =>
    intro p S hsp hp hdrop ht hchain
    have hgt : S.path.get? S.target_index = some t' := by
      have hh : (S.path.drop S.target_index).head? = some t' := by rw [hdrop]; rfl
      rwa [← List.get?_zero, List.get?_drop, Nat.add_zero] at hh
    have ht' : S.target = some t' := by rw [ht, hgt]
    have hne : p ≠ t' := (List.chain'_cons.mp hchain).1
    have hchain' : List.Chain' (fun a b => a ≠ b) (t' :: rest) := (List.chain'_cons.mp hchain).2
    obtain ⟨l1, l2⟩ := leg_run hv ⌈dist2 p t' / v⌉₊ p t' S hsp hp ht' hne rfl
    have hlen : S.path.length = S.target_index + 1 + rest.length := by
      have := congrArg List.length hdrop
      simp only [List.length_drop, List.length_cons] at this
      omega
    have hsum : sumCeil v (p :: t' :: rest) = ⌈dist2 p t' / v⌉₊ + sumCeil v (t' :: rest) := by
      simp [sumCeil, ceilList]
    rw [hsum, tickN_add]
    have h1 : (tickN ⌈dist2 p t' / v⌉₊ S).1.speed = v := by rw [l1]; exact hsp
    have h2 : (tickN ⌈dist2 p t' / v⌉₊ S).1.pos = some t' := by rw [l1]
    have h3 : (tickN ⌈dist2 p t' / v⌉₊ S).1.path.drop
        (tickN ⌈dist2 p t' / v⌉₊ S).1.target_index = rest := by
      rw [l1]
      show S.path.drop (S.target_index + 1) = rest
      rw [← List.tail_drop, hdrop]
      rfl
    have h4 : (tickN ⌈dist2 p t' / v⌉₊ S).1.target =
        (tickN ⌈dist2 p t' / v⌉₊ S).1.path.get?
          (tickN ⌈dist2 p t' / v⌉₊ S).1.target_index := by
      rw [l1]
    obtain ⟨r1, r2, r3⟩ := ih t' (tickN ⌈dist2 p t' / v⌉₊ S).1 h1 h2 h3 h4 hchain'
    refine ⟨r1, ?_, ?_⟩
    · rw [r2, List.getLast?_cons_cons]
    · simp only [List.map_append, l2, r3]
      cases rest with
      | nil =>
        have hcond : ¬ S.target_index + 1 < S.path.length := by
          simp only [List.length_nil] at hlen
          omega
        simp [runKinds, hcond]
      | cons c rest' =>
        have hcond : S.target_index + 1 < S.path.length := by
          simp only [List.length_cons] at hlen
          omega
        simp [runKinds, hcond]

theorem update_zero_leg {s : Ship} {p : Pos} (hp : s.pos = some p) (ht : s.target = some p)
    (hv : 0 ≤ s.speed) (hlt : s.target_index + 1 < s.path.length) :
    update s = ({ s with
        pos := none,
        target_index := s.target_index + 1,
        target := some (s.path.get ⟨s.target_index + 1, hlt⟩) },
      [⟨s.name, Metric.distance_traveled, min s.speed 0, none⟩,
       ⟨s.name, Metric.route_exit, 0, none⟩,
       ⟨s.name, Metric.route_enter, 0, none⟩]) := by
  have hd0 : dist2 p p = 0 := dist2_eq_zero.mpr rfl
  unfold update
  rw [ht, hp]
  simp only [hd0, if_pos rfl, if_pos hv, dif_pos hlt, eq_self_iff_true, if_true]

theorem n2_x (x : ℝ) (hx : 0 ≤ x) : n2 (x, 0) = x := by
  rw [n2]
  show Real.sqrt (x ^ 2 + 0 ^ 2) = x
  rw [show x ^ 2 + 0 ^ 2 = x ^ 2 by ring, Real.sqrt_sq hx]

theorem dist2_x (a b : ℝ) (h : a ≤ b) : dist2 (a, 0) (b, 0) = b - a := by
  rw [dist2, Prod.mk_sub_mk, sub_zero, n2_x _ (by linarith)]

theorem runKinds_flatten (v : ℝ) : ∀ (a b : Pos) (r : List Pos),
    Metric.route_enter :: runKinds v (a :: b :: r) =
      ((ceilList v (a :: b :: r)).map (fun k =>
        Metric.route_enter :: (List.replicate k Metric.distance_traveled ++
          [Metric.route_exit]))).flatten := by
  intro a b r
  induction r generalizing a b with
  | nil => simp [runKinds, ceilList]
  | cons c r' ih =>
    have hbc := ih b c
    simp only [runKinds, ceilList, List.map_cons, List.flatten_cons] at hbc ⊢
    rw [← hbc]
    simp

theorem ceilList_length (v : ℝ) : ∀ l : List Pos, (ceilList v l).length = l.length - 1
  | [] => by simp [ceilList]
  | [_] => by simp [ceilList]
  | _ :: b :: r => by
    simp only [ceilList, List.length_cons]
    rw [ceilList_length v (b :: r)]
    simp

theorem ceilList_pos {v : ℝ} (hv : 0 < v) :
    ∀ l : List Pos, List.Chain' (fun a b => a ≠ b) l → ∀ k ∈ ceilList v l, 1 ≤ k
  | [] => by simp [ceilList]
  | [_] => by simp [ceilList]
  | a :: b :: r => by
    intro hchain k hk
    simp only [ceilList, List.mem_cons] at hk
    rcases hk with h | h
    · have hne : a ≠ b := (List.chain'_cons.mp hchain).1
      have : 0 < ⌈dist2 a b / v⌉₊ := Nat.ceil_pos.mpr (div_pos (dist2_pos hne) hv)
      omega
    · exact ceilList_pos hv (b :: r) (List.chain'_cons.mp hchain).2 k h

/-- C9: calling update (tick) on a ship whose target is none (idle) is a
complete no-op: position, path, target_index and target are unchanged and no
event is emitted. -/
theorem c9_idle_update_noop (s : Ship) (h : s.target = none) : update s = (s, []) :=
  update_idle h

theorem c9_idle_update_noop_witness :
    (mkShip "A" ((0:ℝ), (0:ℝ)) 1).target = none ∧
      update (mkShip "A" ((0:ℝ), (0:ℝ)) 1) = (mkShip "A" ((0:ℝ), (0:ℝ)) 1, []) :=
  ⟨rfl, c9_idle_update_noop _ rfl⟩

/-- C6: set_path with fewer than two points is a no-op with no event; with two
or more points it sets target_index to 1, target to the second point, and
emits exactly one route_enter event of value 0 at the current position. -/
theorem c6_set_path_cases (s : Ship) (p : List Pos) :
    (p.length < 2 → set_path s p = (s, [])) ∧
    (2 ≤ p.length → set_path s p =
      ({ s with path := p, target_index := 1, target := p.get? 1 },
       [⟨s.name, Metric.route_enter, 0, s.pos⟩])) := by
  constructor
  · intro h
    rw [set_path, if_pos h]
  · intro h
    rw [set_path, if_neg (by omega)]

theorem c6_set_path_cases_witness :
    ([((1:ℝ), (1:ℝ))].length < 2 ∧
      set_path (mkShip "A" ((0:ℝ), (0:ℝ)) 2) [((1:ℝ), (1:ℝ))] =
        (mkShip "A" ((0:ℝ), (0:ℝ)) 2, [])) ∧
    (2 ≤ [((1:ℝ), (1:ℝ)), ((2:ℝ), (2:ℝ))].length ∧
      set_path (mkShip "A" ((0:ℝ), (0:ℝ)) 2) [((1:ℝ), (1:ℝ)), ((2:ℝ), (2:ℝ))] =
        ({ mkShip "A" ((0:ℝ), (0:ℝ)) 2 with
            path := [((1:ℝ), (1:ℝ)), ((2:ℝ), (2:ℝ))],
            target_index := 1,
            target := [((1:ℝ), (1:ℝ)), ((2:ℝ), (2:ℝ))].get? 1 },
         [⟨"A", Metric.route_enter, 0, some ((0:ℝ), (0:ℝ))⟩])) :=
  ⟨⟨by norm_num, (c6_set_path_cases _ _).1 (by norm_num)⟩,
   ⟨by norm_num, (c6_set_path_cases _ _).2 (by norm_num)⟩⟩

/-- C1 evaluated on the code: on the zero-length-leg scenario, the first tick
does advance to the next waypoint, but the position does not stay (0,0): the
unguarded 0/0 division turns it into NaN (modelled as none), contradicting the
required no-movement behavior. -/
theorem c1_zero_leg_nan_position :
    (update ((set_path (mkShip "S" ((0:ℝ), (0:ℝ)) 1)
        [((0:ℝ), (0:ℝ)), ((0:ℝ), (0:ℝ)), ((5:ℝ), (5:ℝ))]).1)).1.pos = none ∧
    (update ((set_path (mkShip "S" ((0:ℝ), (0:ℝ)) 1)
        [((0:ℝ), (0:ℝ)), ((0:ℝ), (0:ℝ)), ((5:ℝ), (5:ℝ))]).1)).1.target =
      some ((5:ℝ), (5:ℝ)) := by
  have hS : (set_path (mkShip "S" ((0:ℝ), (0:ℝ)) 1)
      [((0:ℝ), (0:ℝ)), ((0:ℝ), (0:ℝ)), ((5:ℝ), (5:ℝ))]).1 =
      { name := "S", pos := some ((0:ℝ), (0:ℝ)), speed := 1,
        path := [((0:ℝ), (0:ℝ)), ((0:ℝ), (0:ℝ)), ((5:ℝ), (5:ℝ))],
        target_index := 1, target := some ((0:ℝ), (0:ℝ)) } := by
    rw [set_path, if_neg (by norm_num)]
    rfl
  rw [hS]
  rw [update_zero_leg rfl rfl (by norm_num) (by norm_num)]
  exact ⟨rfl, rfl⟩

/-- C4 (amended): a ship at the start of its resolved path, with positive
speed and pairwise-distinct consecutive waypoints, becomes idle within the sum
over the path's legs of ceil(leg length / speed) ticks. -/
theorem c4_idle_by_leg_sum (nm : String) (p0 : Pos) (v : ℝ) (path : List Pos)
    (hv : 0 < v) (hd : path.head? = some p0)
    (hchain : List.Chain' (fun a b => a ≠ b) path) :
    (tickN (sumCeil v path) ((set_path (mkShip nm p0 v) path).1)).1.target = none := by
  cases path with
  | nil => simp at hd
  | cons q tail =>
    have hq : q = p0 := by simpa using hd
    subst hq
    cases tail with
    | nil =>
      rw [set_path, if_pos (by norm_num)]
      rw [tickN_idle rfl]
      rfl
    | cons q1 rest =>
      have hS : (set_path (mkShip nm q v) (q :: q1 :: rest)).1 =
          { name := nm, pos := some q, speed := v, path := q :: q1 :: rest,
            target_index := 1, target := (q :: q1 :: rest).get? 1 } := by
        rw [set_path, if_neg (by simp)]
        rfl
      rw [hS]
      exact (run_to_idle hv (q1 :: rest) q
        { name := nm, pos := some q, speed := v, path := q :: q1 :: rest,
          target_index := 1, target := (q :: q1 :: rest).get? 1 }
        rfl rfl rfl rfl hchain).1

theorem c4_idle_by_leg_sum_witness :
    (0:ℝ) < 5 ∧ [((0:ℝ), (0:ℝ)), ((3:ℝ), (0:ℝ))].head? = some ((0:ℝ), (0:ℝ)) ∧
    List.Chain' (fun a b => a ≠ b) [((0:ℝ), (0:ℝ)), ((3:ℝ), (0:ℝ))] ∧
    (tickN (sumCeil 5 [((0:ℝ), (0:ℝ)), ((3:ℝ), (0:ℝ))])
      ((set_path (mkShip "A" ((0:ℝ), (0:ℝ)) 5)
        [((0:ℝ), (0:ℝ)), ((3:ℝ), (0:ℝ))]).1)).1.target = none := by
  have hne : ((0:ℝ), (0:ℝ)) ≠ ((3:ℝ), (0:ℝ)) := by
    intro h
    have := congrArg Prod.fst h
    norm_num at this
  have hch : List.Chain' (fun a b => a ≠ b) [((0:ℝ), (0:ℝ)), ((3:ℝ), (0:ℝ))] :=
    List.chain'_cons.mpr ⟨hne, List.chain'_singleton _⟩
  exact ⟨by norm_num, rfl, hch,
    c4_idle_by_leg_sum "A" ((0:ℝ), (0:ℝ)) 5 _ (by norm_num) rfl hch⟩

/-- C5: over a full lifetime (one set_path call, then ticks until idle) the
emitted metric kinds are exactly, per leg, route_enter followed by one or more
distance_traveled followed by route_exit, with nothing after the final
route_exit. -/
theorem c5_lifetime_kinds (nm : String) (p0 : Pos) (v : ℝ) (path : List Pos)
    (hv : 0 < v) (hlen : 2 ≤ path.length) (hd : path.head? = some p0)
    (hchain : List.Chain' (fun a b => a ≠ b) path) :
    (((set_path (mkShip nm p0 v) path).2 ++
        (tickN (sumCeil v path) ((set_path (mkShip nm p0 v) path).1)).2).map Event.metric =
      ((ceilList v path).map (fun k =>
        Metric.route_enter :: (List.replicate k Metric.distance_traveled ++
          [Metric.route_exit]))).flatten) ∧
    (ceilList v path).length = path.length - 1 ∧
    (∀ k ∈ ceilList v path, 1 ≤ k) ∧
    (∀ m, (tickN m ((tickN (sumCeil v path)
        ((set_path (mkShip nm p0 v) path).1)).1)).2 = []) := by
  cases path with
  | nil => simp at hd
  | cons q tail =>
    have hq : q = p0 := by simpa using hd
    subst hq
    cases tail with
    | nil => simp at hlen
    | cons q1 rest =>
      have hS : set_path (mkShip nm q v) (q :: q1 :: rest) =
          ({ name := nm, pos := some q, speed := v, path := q :: q1 :: rest,
             target_index := 1, target := (q :: q1 :: rest).get? 1 },
           [⟨nm, Metric.route_enter, 0, some q⟩]) := by
        rw [set_path, if_neg (by simp)]
        rfl
      obtain ⟨r1, _r2, r3⟩ := run_to_idle hv (q1 :: rest) q
        { name := nm, pos := some q, speed := v, path := q :: q1 :: rest,
          target_index := 1, target := (q :: q1 :: rest).get? 1 }
        rfl rfl rfl rfl hchain
      rw [hS]
      refine ⟨?_, ceilList_length v _, ceilList_pos hv _ hchain, ?_⟩
      · rw [List.map_append]
        show Metric.route_enter ::
            (tickN (sumCeil v (q :: q1 :: rest)) _).2.map Event.metric = _
        rw [r3, runKinds_flatten]
      · intro m
        rw [tickN_idle r1]

theorem c5_lifetime_kinds_witness :
    (0:ℝ) < 5 ∧ 2 ≤ [((0:ℝ), (0:ℝ)), ((3:ℝ), (0:ℝ))].length ∧
    [((0:ℝ), (0:ℝ)), ((3:ℝ), (0:ℝ))].head? = some ((0:ℝ), (0:ℝ)) ∧
    List.Chain' (fun a b => a ≠ b) [((0:ℝ), (0:ℝ)), ((3:ℝ), (0:ℝ))] ∧
    (((set_path (mkShip "B" ((0:ℝ), (0:ℝ)) 5) [((0:ℝ), (0:ℝ)), ((3:ℝ), (0:ℝ))]).2 ++
        (tickN (sumCeil 5 [((0:ℝ), (0:ℝ)), ((3:ℝ), (0:ℝ))])
          ((set_path (mkShip "B" ((0:ℝ), (0:ℝ)) 5)
            [((0:ℝ), (0:ℝ)), ((3:ℝ), (0:ℝ))]).1)).2).map Event.metric =
      ((ceilList 5 [((0:ℝ), (0:ℝ)), ((3:ℝ), (0:ℝ))]).map (fun k =>
        Metric.route_enter :: (List.replicate k Metric.distance_traveled ++
          [Metric.route_exit]))).flatten) := by
  have hne : ((0:ℝ), (0:ℝ)) ≠ ((3:ℝ), (0:ℝ)) := by
    intro h
    have := congrArg Prod.fst h
    norm_num at this
  have hch : List.Chain' (fun a b => a ≠ b) [((0:ℝ), (0:ℝ)), ((3:ℝ), (0:ℝ))] :=
    List.chain'_cons.mpr ⟨hne, List.chain'_singleton _⟩
  exact ⟨by norm_num, by norm_num, rfl, hch,
    (c5_lifetime_kinds "B" ((0:ℝ), (0:ℝ)) 5 [((0:ℝ), (0:ℝ)), ((3:ℝ), (0:ℝ))]
      (by norm_num) (by norm_num) rfl hch).1⟩

/-- C4 counterexample: with legs of length 7 and 7 at speed 5, the claimed
bound ceil(total_path_length/speed) = 3 ticks is not enough: after 3 ticks the
ship is still en route toward the last waypoint (target is not none).  The
ship actually needs ceil(7/5) + ceil(7/5) = 4 ticks. -/
theorem c4_ceil_total_cex :
    ⌈(dist2 ((0:ℝ), (0:ℝ)) ((7:ℝ), (0:ℝ)) +
        dist2 ((7:ℝ), (0:ℝ)) ((14:ℝ), (0:ℝ))) / 5⌉₊ = 3 ∧
    (tickN 3 ((set_path (mkShip "C" ((0:ℝ), (0:ℝ)) 5)
        [((0:ℝ), (0:ℝ)), ((7:ℝ), (0:ℝ)), ((14:ℝ), (0:ℝ))]).1)).1.target =
      some ((14:ℝ), (0:ℝ)) := by
  have d1 : dist2 ((0:ℝ), (0:ℝ)) ((7:ℝ), (0:ℝ)) = 7 := by
    rw [dist2_x 0 7 (by norm_num)]; norm_num
  have d2 : dist2 ((7:ℝ), (0:ℝ)) ((14:ℝ), (0:ℝ)) = 7 := by
    rw [dist2_x 7 14 (by norm_num)]; norm_num
  constructor
  · rw [d1, d2, Nat.ceil_eq_iff (by norm_num)]
    norm_num
  · have hS : (set_path (mkShip "C" ((0:ℝ), (0:ℝ)) 5)
        [((0:ℝ), (0:ℝ)), ((7:ℝ), (0:ℝ)), ((14:ℝ), (0:ℝ))]).1 =
        { name := "C", pos := some ((0:ℝ), (0:ℝ)), speed := 5,
          path := [((0:ℝ), (0:ℝ)), ((7:ℝ), (0:ℝ)), ((14:ℝ), (0:ℝ))],
          target_index := 1, target := some ((7:ℝ), (0:ℝ)) } := by
      rw [set_path, if_neg (by norm_num)]
      rfl
    rw [hS]
    have hne01 : ((0:ℝ), (0:ℝ)) ≠ ((7:ℝ), (0:ℝ)) := by
      intro h
      have := congrArg Prod.fst h
      norm_num at this
    have hk : ⌈dist2 ((0:ℝ), (0:ℝ)) ((7:ℝ), (0:ℝ)) / 5⌉₊ = 2 := by
      rw [d1, Nat.ceil_eq_iff (by norm_num)]
      norm_num
    obtain ⟨l1, _⟩ := leg_run (show (0:ℝ) < 5 by norm_num) 2 ((0:ℝ), (0:ℝ)) ((7:ℝ), (0:ℝ))
      { name := "C", pos := some ((0:ℝ), (0:ℝ)), speed := 5,
        path := [((0:ℝ), (0:ℝ)), ((7:ℝ), (0:ℝ)), ((14:ℝ), (0:ℝ))],
        target_index := 1, target := some ((7:ℝ), (0:ℝ)) }
      rfl rfl rfl hne01 hk
    have e2 : (tickN 2
        { name := "C", pos := some ((0:ℝ), (0:ℝ)), speed := 5,
          path := [((0:ℝ), (0:ℝ)), ((7:ℝ), (0:ℝ)), ((14:ℝ), (0:ℝ))],
          target_index := 1, target := some ((7:ℝ), (0:ℝ)) }).1 =
        { name := "C", pos := some ((7:ℝ), (0:ℝ)), speed := 5,
          path := [((0:ℝ), (0:ℝ)), ((7:ℝ), (0:ℝ)), ((14:ℝ), (0:ℝ))],
          target_index := 2, target := some ((14:ℝ), (0:ℝ)) } := by
      rw [l1]
      rfl
    have hupd := @update_far
      { name := "C", pos := some ((7:ℝ), (0:ℝ)), speed := 5,
        path := [((0:ℝ), (0:ℝ)), ((7:ℝ), (0:ℝ)), ((14:ℝ), (0:ℝ))],
        target_index := 2, target := some ((14:ℝ), (0:ℝ)) }
      ((7:ℝ), (0:ℝ)) ((14:ℝ), (0:ℝ)) rfl rfl (by norm_num)
      (by rw [d2]; norm_num)
    have e4 : (tickN 1
        { name := "C", pos := some ((7:ℝ), (0:ℝ)), speed := 5,
          path := [((0:ℝ), (0:ℝ)), ((7:ℝ), (0:ℝ)), ((14:ℝ), (0:ℝ))],
          target_index := 2, target := some ((14:ℝ), (0:ℝ)) }).1.target =
        some ((14:ℝ), (0:ℝ)) := by
      show ((tickN (0 + 1)
        { name := "C", pos := some ((7:ℝ), (0:ℝ)), speed := 5,
          path := [((0:ℝ), (0:ℝ)), ((7:ℝ), (0:ℝ)), ((14:ℝ), (0:ℝ))],
          target_index := 2, target := some ((14:ℝ), (0:ℝ)) })).1.target =
        some ((14:ℝ), (0:ℝ))
      rw [tickN_succ 0, hupd]
      rfl
    show ((tickN (2 + 1)
      { name := "C", pos := some ((0:ℝ), (0:ℝ)), speed := 5,
        path := [((0:ℝ), (0:ℝ)), ((7:ℝ), (0:ℝ)), ((14:ℝ), (0:ℝ))],
        target_index := 1, target := some ((7:ℝ), (0:ℝ)) })).1.target =
      some ((14:ℝ), (0:ℝ))
    rw [tickN_add 2 1]
    show ((tickN 1 (tickN 2
      { name := "C", pos := some ((0:ℝ), (0:ℝ)), speed := 5,
        path := [((0:ℝ), (0:ℝ)), ((7:ℝ), (0:ℝ)), ((14:ℝ), (0:ℝ))],
        target_index := 1, target := some ((7:ℝ), (0:ℝ)) }).1)).1.target =
      some ((14:ℝ), (0:ℝ))
    rw [e2]
    exact e4

theorem entLt_fst_le {x y : Entry} (h : entLt x y) : x.1 ≤ y.1 := by
  rcases h with h | ⟨h, _⟩
  · exact le_of_lt h
  · exact le_of_eq h

theorem fst_le_of_not_entLt {x y : Entry} (h : ¬ entLt x y) : y.1 ≤ x.1 := by
  by_contra hc
  exact h (Or.inl (not_le.mp hc))

theorem popMin_eq_none : ∀ {q : List Entry}, popMin q = none → q = [] := by
  classical
  intro q h
  cases q with
  | nil => rfl
  | cons e es =>
    rw [popMin] at h
    cases hes : popMin es with
    | none => rw [hes] at h; simp at h
    | some pr =>
      obtain ⟨m, rest⟩ := pr
      rw [hes] at h
      have h2 : (if entLt m e then some (m, e :: rest) else some (e, es) :
          Option (Entry × List Entry)) = none := h
      by_cases hlt : entLt m e
      · rw [if_pos hlt] at h2; simp at h2
      · rw [if_neg hlt] at h2; simp at h2

theorem popMin_perm : ∀ {q : List Entry} {e : Entry} {rest : List Entry},
    popMin q = some (e, rest) → q.Perm (e :: rest) := by
  classical
  intro q
  induction q with
  | nil => intro e rest h; rw [popMin] at h; simp at h
  | cons a es ih =>
    intro e rest h
    rw [popMin] at h
    cases hes : popMin es with
    | none =>
      rw [hes] at h
      have hnil := popMin_eq_none hes
      subst hnil
      have h2 : (some (a, ([] : List Entry)) : Option (Entry × List Entry)) = some (e, rest) := h
      simp only [Option.some.injEq, Prod.mk.injEq] at h2
      rw [← h2.1, ← h2.2]
    | some pr =>
      obtain ⟨m, rest'⟩ := pr
      rw [hes] at h
      have h2 : (if entLt m a then some (m, a :: rest') else some (a, es) :
          Option (Entry × List Entry)) = some (e, rest) := h
      have hperm := ih hes
      by_cases hlt : entLt m a
      · rw [if_pos hlt] at h2
        simp only [Option.some.injEq, Prod.mk.injEq] at h2
        rw [← h2.1, ← h2.2]
        exact (hperm.cons a).trans (List.Perm.swap m a rest')
      · rw [if_neg hlt] at h2
        simp only [Option.some.injEq, Prod.mk.injEq] at h2
        rw [← h2.1, ← h2.2]

theorem popMin_min : ∀ {q : List Entry} {e : Entry} {rest : List Entry},
    popMin q = some (e, rest) → ∀ x ∈ q, e.1 ≤ x.1 := by
  classical
  intro q
  induction q with
  | nil => intro e rest h; rw [popMin] at h; simp at h
  | cons a es ih =>
    intro e rest h x hx
    rw [popMin] at h
    cases hes : popMin es with
    | none =>
      rw [hes] at h
      have hnil := popMin_eq_none hes
      subst hnil
      have h2 : (some (a, ([] : List Entry)) : Option (Entry × List Entry)) = some (e, rest) := h
      simp only [Option.some.injEq, Prod.mk.injEq] at h2
      simp only [List.mem_singleton] at hx
      rw [← h2.1, hx]
    | some pr =>
      obtain ⟨m, rest'⟩ := pr
      rw [hes] at h
      have h2 : (if entLt m a then some (m, a :: rest') else some (a, es) :
          Option (Entry × List Entry)) = some (e, rest) := h
      rcases List.mem_cons.mp hx with hxa | hxes
      · by_cases hlt : entLt m a
        · rw [if_pos hlt] at h2
          simp only [Option.some.injEq, Prod.mk.injEq] at h2
          rw [← h2.1, hxa]
          exact entLt_fst_le hlt
        · rw [if_neg hlt] at h2
          simp only [Option.some.injEq, Prod.mk.injEq] at h2
          rw [← h2.1, hxa]
      · by_cases hlt : entLt m a
        · rw [if_pos hlt] at h2
          simp only [Option.some.injEq, Prod.mk.injEq] at h2
          rw [← h2.1]
          exact ih hes x hxes
        · rw [if_neg hlt] at h2
          simp only [Option.some.injEq, Prod.mk.injEq] at h2
          rw [← h2.1]
          exact le_trans (fst_le_of_not_entLt hlt) (ih hes x hxes)

theorem lookup_cons_self {β : Type} {k : String} {w : β} {V : List (String × β)} :
    List.lookup k ((k, w) :: V) = some w := by
  simp [List.lookup]

theorem lookup_cons_ne {β : Type} {m k : String} {w : β} {V : List (String × β)}
    (h : m ≠ k) : List.lookup m ((k, w) :: V) = List.lookup m V := by
  simp [List.lookup, beq_eq_false_iff_ne.mpr h]

theorem lookup_mem {β : Type} : ∀ {l : List (String × β)} {a : String} {b : β},
    List.lookup a l = some b → (a, b) ∈ l := by
  intro l
  induction l with
  | nil => intro a b h; simp [List.lookup] at h
  | cons kv rest ih =>
    intro a b h
    obtain ⟨k, val⟩ := kv
    by_cases hak : a = k
    · subst hak
      rw [lookup_cons_self] at h
      rw [Option.some.injEq] at h
      subst h
      exact List.mem_cons_self _ _
    · rw [lookup_cons_ne hak] at h
      exact List.mem_cons_of_mem _ (ih h)

theorem wt_nonneg (posf : String → Pos) {v : ℝ} (hv : 0 < v) (a b : String) :
    0 ≤ wt posf v a b :=
  div_nonneg (dist2_nonneg _ _) (le_of_lt hv)

theorem pathTime_cons (posf : String → Pos) (v : ℝ) (a b : String) (r : List String) :
    pathTime posf v (a :: b :: r) = wt posf v a b + pathTime posf v (b :: r) := rfl

theorem pathTime_concat (posf : String → Pos) (v : ℝ) :
    ∀ (p : List String) (a b : String), p.getLast? = some a →
      pathTime posf v (p ++ [b]) = pathTime posf v p + wt posf v a b := by
  intro p
  induction p with
  | nil => intro a b h; simp at h
  | cons x rest ih =>
    intro a b h
    cases rest with
    | nil =>
      simp only [List.getLast?_singleton, Option.some.injEq] at h
      rw [← h]
      show pathTime posf v [x, b] = pathTime posf v [x] + wt posf v x b
      rw [pathTime_cons]
      show wt posf v x b + 0 = 0 + wt posf v x b
      ring
    | cons y r =>
      have h' : (y :: r).getLast? = some a := by rwa [List.getLast?_cons_cons] at h
      have ihab := ih a b h'
      rw [List.cons_append] at ihab
      rw [List.cons_append, List.cons_append, pathTime_cons, ihab, pathTime_cons]
      ring

theorem head?_append_left {α : Type} {l l2 : List α} (h : l ≠ []) :
    (l ++ l2).head? = l.head? := by
  cases l with
  | nil => exact absurd rfl h
  | cons x xs => rfl

theorem exists_getLast? {α : Type} {l : List α} (h : l ≠ []) : ∃ a, l.getLast? = some a :=
  ⟨l.getLast h, List.getLast?_eq_getLast l h⟩

theorem reach_cases (g : Graph) (posf : String → Pos) {v : ℝ} (hv : 0 < v)
    (src : String) (Q : List Entry) (V : List (String × ℝ))
    (hstart : StartOK Q V src) (hrelax : RelaxOK g posf v Q V) :
    ∀ P : List String, P ≠ [] → P.head? = some src →
      List.Chain' (fun a b => b ∈ gget g a) P →
      (∃ n w, P.getLast? = some n ∧ List.lookup n V = some w ∧ w ≤ pathTime posf v P) ∨
      (∃ x ∈ Q, x.1 ≤ pathTime posf v P) := by
  intro P
  induction P using List.reverseRecOn with
  | nil => intro h; exact absurd rfl h
  | append_singleton l b ihl =>
    intro _ hh hc
    by_cases hl : l = []
    · subst hl
      simp only [List.nil_append, List.head?_cons, Option.some.injEq] at hh
      subst hh
      simp only [List.nil_append]
      have h0 : pathTime posf v [b] = 0 := rfl
      rcases hstart with ⟨w, hlk, hw⟩ | ⟨x, hxQ, hxs, hxk⟩
      · left
        exact ⟨b, w, rfl, hlk, by rw [h0]; exact hw⟩
      · right
        exact ⟨x, hxQ, by rw [h0]; exact hxk⟩
    · obtain ⟨a, hla⟩ := exists_getLast? hl
      have hh' : l.head? = some src := by rwa [head?_append_left hl] at hh
      obtain ⟨hcl, _hcb, hcross⟩ := List.chain'_append.mp hc
      have hb : b ∈ gget g a := hcross a hla b rfl
      have htime : pathTime posf v (l ++ [b]) = pathTime posf v l + wt posf v a b :=
        pathTime_concat posf v l a b hla
      have hwt := wt_nonneg posf hv a b
      rcases ihl hl hh' hcl with ⟨n, w, hnl, hlk, hle⟩ | ⟨x, hxQ, hxle⟩
      · have hna : n = a := by
          rw [hnl] at hla
          exact Option.some.inj hla
        subst hna
        rcases hrelax n w hlk b hb with ⟨w2, hl2, hle2⟩ | ⟨x, hxQ, hxb, hxle2⟩
        · left
          refine ⟨b, w2, List.getLast?_concat l, hl2, ?_⟩
          rw [htime]
          linarith
        · right
          refine ⟨x, hxQ, ?_⟩
          rw [htime]
          linarith
      · right
        refine ⟨x, hxQ, ?_⟩
        rw [htime]
        linarith

theorem mem_gget_cands {g : Graph} {n nb : String} (src : String) (h : nb ∈ gget g n) :
    nb ∈ cands g src := by
  rw [gget] at h
  cases hl : List.lookup n g with
  | none => rw [hl] at h; simp at h
  | some l =>
    rw [hl] at h
    simp only [Option.getD_some] at h
    have hm := lookup_mem hl
    rw [cands]
    apply Finset.mem_insert_of_mem
    rw [List.mem_toFinset, List.mem_flatMap]
    exact ⟨(n, l), hm, h⟩

theorem measure_skip {g : Graph} {src : String} {Q rest : List Entry} {e : Entry}
    {V : List (String × ℝ)} (hperm : Q.Perm (e :: rest)) :
    measureQV g src rest V + 1 = measureQV g src Q V := by
  have hlen := hperm.length_eq
  simp only [List.length_cons] at hlen
  rw [measureQV, measureQV, hlen]
  omega

theorem filter_vis_cons {g : Graph} {src node : String} {t : ℝ} {V : List (String × ℝ)} :
    ((cands g src).filter (fun n => (List.lookup n ((node, t) :: V)).isNone)) =
      ((cands g src).filter (fun n => (List.lookup n V).isNone)).erase node := by
  ext n
  simp only [Finset.mem_filter, Finset.mem_erase]
  by_cases hn : n = node
  · subst hn
    simp only [lookup_cons_self]
    simp
  · rw [lookup_cons_ne hn]
    constructor
    · rintro ⟨h1, h2⟩; exact ⟨hn, h1, h2⟩
    · rintro ⟨_, h1, h2⟩; exact ⟨h1, h2⟩

theorem measure_process {g : Graph} {src node : String} {t : ℝ} {Q rest : List Entry}
    {pushes : List Entry} {V : List (String × ℝ)} {e : Entry}
    (hperm : Q.Perm (e :: rest)) (hplen : pushes.length = (gget g node).length)
    (hnode : node ∈ cands g src) (hnone : List.lookup node V = none) :
    measureQV g src (pushes ++ rest) ((node, t) :: V) + 2 = measureQV g src Q V := by
  have hlen := hperm.length_eq
  simp only [List.length_cons] at hlen
  have hmem : node ∈ ((cands g src).filter (fun n => (List.lookup n V).isNone)) := by
    rw [Finset.mem_filter, hnone]
    exact ⟨hnode, rfl⟩
  have hsum : ((gget g node).length + 1) +
      ∑ n ∈ ((cands g src).filter (fun n => (List.lookup n V).isNone)).erase node,
        ((gget g n).length + 1) =
      ∑ n ∈ (cands g src).filter (fun n => (List.lookup n V).isNone),
        ((gget g n).length + 1) :=
    Finset.add_sum_erase _ (fun n => (gget g n).length + 1) hmem
  rw [measureQV, measureQV, filter_vis_cons, List.length_append, hplen, hlen]
  omega

open Classical in
theorem fpLoop_succ_empty (g : Graph) (posf : String → Pos) (v : ℝ) (dst : String)
    (fuel : ℕ) (Q : List Entry) (V : List (String × ℝ)) (hpop : popMin Q = none) :
    fpLoop g posf v dst (fuel + 1) Q V = some none := by
  rw [fpLoop, hpop]

open Classical in
theorem fpLoop_succ_pop (g : Graph) (posf : String → Pos) (v : ℝ) (dst : String)
    (fuel : ℕ) (Q : List Entry) (V : List (String × ℝ)) (t : ℝ) (node : String)
    (p : List String) (rest : List Entry)
    (hpop : popMin Q = some ((t, node, p), rest)) :
    fpLoop g posf v dst (fuel + 1) Q V =
      if node = dst then some (some p)
      else if visCheck V node t then fpLoop g posf v dst fuel rest V
      else fpLoop g posf v dst fuel
        (((gget g node).map (fun nb =>
            (t + dist2 (posf node) (posf nb) / v, nb, p ++ [nb]))) ++ rest)
        ((node, t) :: V) := by
  rw [fpLoop, hpop]

open Classical in
theorem fpLoop_sound (g : Graph) (posf : String → Pos) {v : ℝ} (src dst : String)
    (hv : 0 < v) :
    ∀ (fuel : ℕ) (Q : List Entry) (V : List (String × ℝ)),
      Inv g posf v src dst Q V → measureQV g src Q V < fuel →
      ∃ r, fpLoop g posf v dst fuel Q V = some r ∧
        (r = none → ¬ Connected g src dst) ∧
        (∀ p, r = some p → IsRoute g src dst p ∧
          ∀ q, IsRoute g src dst q → pathTime posf v p ≤ pathTime posf v q) := by
  intro fuel
  induction fuel with
  | zero => intro Q V _ hm; omega
  | succ fuel ih =>
    intro Q V hinv hm
    obtain ⟨hent, hstart, hrelax, hgoal, hfront, hnodes⟩ := hinv
    cases hpop : popMin Q with
    | none =>
      refine ⟨none, fpLoop_succ_empty g posf v dst fuel Q V hpop, ?_, ?_⟩
      · intro _
        rintro ⟨P, hPh, hPl, hPc⟩
        have hQnil := popMin_eq_none hpop
        subst hQnil
        have hPne : P ≠ [] := by
          intro h; rw [h] at hPh; simp at hPh
        rcases reach_cases g posf hv src [] V hstart hrelax P hPne hPh hPc with
          ⟨n, w, hnl, hlk, _⟩ | ⟨x, hxQ, _⟩
        · rw [hPl] at hnl
          have hnd : dst = n := Option.some.inj hnl
          rw [← hnd, hgoal] at hlk
          exact absurd hlk (by simp)
        · simp at hxQ
      · intro p hp
        exact absurd hp (by simp)
    | some pr =>
      obtain ⟨⟨t, node, p⟩, rest⟩ := pr
      have hperm := popMin_perm hpop
      have hmin := popMin_min hpop
      have hpmem : (t, node, p) ∈ Q := hperm.mem_iff.mpr (List.mem_cons_self _ _)
      have hmem_rest : ∀ x ∈ rest, x ∈ Q := fun x hx =>
        hperm.mem_iff.mpr (List.mem_cons_of_mem _ hx)
      have hrw := fpLoop_succ_pop g posf v dst fuel Q V t node p rest hpop
      by_cases hdst : node = dst
      · rw [if_pos hdst] at hrw
        refine ⟨some p, hrw, ?_, ?_⟩
        · intro h; exact absurd h (by simp)
        · intro p' hp'
          have hpp : p' = p := (Option.some.inj hp').symm
          rw [hpp]
          obtain ⟨hph, hpl, hpc, hpt⟩ := hent _ hpmem
          have hph' : p.head? = some src := hph
          have hpl' : p.getLast? = some node := hpl
          have hpc' : List.Chain' (fun a b => b ∈ gget g a) p := hpc
          have hpt' : pathTime posf v p = t := hpt
          have hroute : IsRoute g src dst p := ⟨hph', by rw [hpl', hdst], hpc'⟩
          refine ⟨hroute, ?_⟩
          intro q hq
          obtain ⟨hqh, hql, hqc⟩ := hq
          have hqne : q ≠ [] := by intro h; rw [h] at hqh; simp at hqh
          rcases reach_cases g posf hv src Q V hstart hrelax q hqne hqh hqc with
            ⟨n, w, hnl, hlk, _⟩ | ⟨x, hxQ, hxle⟩
          · exfalso
            rw [hql] at hnl
            have hnd : dst = n := Option.some.inj hnl
            rw [← hnd, hgoal] at hlk
            exact absurd hlk (by simp)
          · have h1 : t ≤ x.1 := hmin x hxQ
            rw [hpt']
            linarith
      · rw [if_neg hdst] at hrw
        by_cases hvis : visCheck V node t
        · rw [if_pos hvis] at hrw
          have hinv' : Inv g posf v src dst rest V := by
            refine ⟨?_, ?_, ?_, hgoal, ?_, ?_⟩
            · exact fun x hx => hent x (hmem_rest x hx)
            · rcases hstart with hL | ⟨x, hxQ, hxs, hxk⟩
              · exact Or.inl hL
              · rcases List.mem_cons.mp (hperm.mem_iff.mp hxQ) with hxe | hxr
                · obtain ⟨w2, hlkw2, hw2t⟩ := hvis
                  have hns : node = src := by rw [hxe] at hxs; exact hxs
                  have hxt : x.1 = t := by rw [hxe]
                  refine Or.inl ⟨w2, ?_, ?_⟩
                  · rw [← hns]; exact hlkw2
                  · have : x.1 ≤ 0 := hxk
                    linarith
                · exact Or.inr ⟨x, hxr, hxs, hxk⟩
            · intro n w hlkn nb hnb
              rcases hrelax n w hlkn nb hnb with hL | ⟨x, hxQ, hxnb, hxle⟩
              · exact Or.inl hL
              · rcases List.mem_cons.mp (hperm.mem_iff.mp hxQ) with hxe | hxr
                · obtain ⟨w2, hlkw2, hw2t⟩ := hvis
                  have hnn : node = nb := by rw [hxe] at hxnb; exact hxnb
                  have hxt : x.1 = t := by rw [hxe]
                  refine Or.inl ⟨w2, ?_, ?_⟩
                  · rw [← hnn]; exact hlkw2
                  · linarith
                · exact Or.inr ⟨x, hxr, hxnb, hxle⟩
            · exact fun n w h x hx => hfront n w h x (hmem_rest x hx)
            · exact fun x hx => hnodes x (hmem_rest x hx)
          have hm' : measureQV g src rest V < fuel := by
            have := @measure_skip g src Q rest (t, node, p) V hperm
            omega
          obtain ⟨r, hr, h1, h2⟩ := ih rest V hinv' hm'
          exact ⟨r, by rw [hrw]; exact hr, h1, h2⟩
        · rw [if_neg hvis] at hrw
          have hlknone : List.lookup node V = none := by
            cases hlk : List.lookup node V with
            | none => rfl
            | some w =>
              exfalso
              apply hvis
              refine ⟨w, hlk, ?_⟩
              exact hfront node w hlk _ hpmem
          obtain ⟨hph, hpl, hpc, hpt⟩ := hent _ hpmem
          have hph' : p.head? = some src := hph
          have hpl' : p.getLast? = some node := hpl
          have hpc' : List.Chain' (fun a b => b ∈ gget g a) p := hpc
          have hpt' : pathTime posf v p = t := hpt
          have hpne : p ≠ [] := by intro h; rw [h] at hph'; simp at hph'
          have hpush_ent : ∀ x ∈ (gget g node).map (fun nb =>
              (t + dist2 (posf node) (posf nb) / v, nb, p ++ [nb])),
              EntOK g posf v src x := by
            intro x hx
            rw [List.mem_map] at hx
            obtain ⟨nb, hnb, hxe⟩ := hx
            subst hxe
            refine ⟨?_, ?_, ?_, ?_⟩
            · show (p ++ [nb]).head? = some src
              rw [head?_append_left hpne]; exact hph'
            · show (p ++ [nb]).getLast? = some nb
              exact List.getLast?_concat p
            · show List.Chain' (fun a b => b ∈ gget g a) (p ++ [nb])
              refine List.chain'_append.mpr ⟨hpc', List.chain'_singleton _, ?_⟩
              intro a ha y hy
              have ha2 : p.getLast? = some a := ha
              rw [hpl'] at ha2
              have ha' : node = a := Option.some.inj ha2
              have hy' : nb = y := by simpa using hy
              rw [← hy', ← ha']
              exact hnb
            · show pathTime posf v (p ++ [nb]) = t + dist2 (posf node) (posf nb) / v
              rw [pathTime_concat posf v p node nb hpl', hpt']
              rfl
          have hinv' : Inv g posf v src dst
              (((gget g node).map (fun nb =>
                (t + dist2 (posf node) (posf nb) / v, nb, p ++ [nb]))) ++ rest)
              ((node, t) :: V) := by
            refine ⟨?_, ?_, ?_, ?_, ?_, ?_⟩
            · intro x hx
              rcases List.mem_append.mp hx with hxp | hxr
              · exact hpush_ent x hxp
              · exact hent x (hmem_rest x hxr)
            · rcases hstart with ⟨w, hlkw, hw⟩ | ⟨x, hxQ, hxs, hxk⟩
              · have hsn : src ≠ node := by
                  intro h; rw [h, hlknone] at hlkw; exact absurd hlkw (by simp)
                exact Or.inl ⟨w, by rw [lookup_cons_ne hsn]; exact hlkw, hw⟩
              · rcases List.mem_cons.mp (hperm.mem_iff.mp hxQ) with hxe | hxr
                · have hns : node = src := by rw [hxe] at hxs; exact hxs
                  have hxt : x.1 = t := by rw [hxe]
                  have hts : t ≤ 0 := by
                    have : x.1 ≤ 0 := hxk
                    linarith
                  refine Or.inl ⟨t, ?_, hts⟩
                  rw [← hns]; exact lookup_cons_self
                · exact Or.inr ⟨x, List.mem_append_right _ hxr, hxs, hxk⟩
            · intro n w hlkn nb hnb
              by_cases hnn : n = node
              · subst hnn
                rw [lookup_cons_self] at hlkn
                have hwt : t = w := Option.some.inj hlkn
                subst hwt
                refine Or.inr ⟨(t + dist2 (posf n) (posf nb) / v, nb, p ++ [nb]), ?_, rfl, ?_⟩
                · exact List.mem_append_left _ (List.mem_map.mpr ⟨nb, hnb, rfl⟩)
                · show t + dist2 (posf n) (posf nb) / v ≤ t + wt posf v n nb
                  exact le_of_eq rfl
              · rw [lookup_cons_ne hnn] at hlkn
                rcases hrelax n w hlkn nb hnb with ⟨w2, hlk2, hw2⟩ | ⟨x, hxQ, hxnb, hxle⟩
                · have hnbn : nb ≠ node := by
                    intro h; rw [h, hlknone] at hlk2; exact absurd hlk2 (by simp)
                  exact Or.inl ⟨w2, by rw [lookup_cons_ne hnbn]; exact hlk2, hw2⟩
                · rcases List.mem_cons.mp (hperm.mem_iff.mp hxQ) with hxe | hxr
                  · have hnbn : node = nb := by rw [hxe] at hxnb; exact hxnb
                    have hxt : x.1 = t := by rw [hxe]
                    refine Or.inl ⟨t, ?_, ?_⟩
                    · rw [← hnbn]; exact lookup_cons_self
                    · linarith
                  · exact Or.inr ⟨x, List.mem_append_right _ hxr, hxnb, hxle⟩
            · have hdn : dst ≠ node := fun h => hdst h.symm
              rw [lookup_cons_ne hdn]; exact hgoal
            · intro n w hlkn x hx
              have hxQ' : t ≤ x.1 ∨ x ∈ Q := by
                rcases List.mem_append.mp hx with hxp | hxr
                · left
                  rw [List.mem_map] at hxp
                  obtain ⟨nb, hnb, hxe⟩ := hxp
                  have h0 : (0:ℝ) ≤ dist2 (posf node) (posf nb) / v :=
                    div_nonneg (dist2_nonneg _ _) (le_of_lt hv)
                  have hx1 : x.1 = t + dist2 (posf node) (posf nb) / v := by rw [← hxe]
                  linarith
                · right; exact hmem_rest x hxr
              by_cases hnn : n = node
              · subst hnn
                rw [lookup_cons_self] at hlkn
                have hwt : t = w := Option.some.inj hlkn
                subst hwt
                rcases hxQ' with h | h
                · exact h
                · exact hmin x h
              · rw [lookup_cons_ne hnn] at hlkn
                rcases hxQ' with h | h
                · have hwle : w ≤ t := hfront n w hlkn _ hpmem
                  linarith
                · exact hfront n w hlkn x h
            · intro x hx
              rcases List.mem_append.mp hx with hxp | hxr
              · rw [List.mem_map] at hxp
                obtain ⟨nb, hnb, hxe⟩ := hxp
                subst hxe
                show nb ∈ cands g src
                exact mem_gget_cands src hnb
              · exact hnodes x (hmem_rest x hxr)
          have hm' : measureQV g src
              (((gget g node).map (fun nb =>
                (t + dist2 (posf node) (posf nb) / v, nb, p ++ [nb]))) ++ rest)
              ((node, t) :: V) < fuel := by
            have hnodecand : node ∈ cands g src := hnodes _ hpmem
            have := @measure_process g src node t Q rest
              ((gget g node).map (fun nb =>
                (t + dist2 (posf node) (posf nb) / v, nb, p ++ [nb])))
              V (t, node, p) hperm (List.length_map _ _) hnodecand hlknone
            omega
          obtain ⟨r, hr, h1, h2⟩ := ih _ _ hinv' hm'
          exact ⟨r, by rw [hrw]; exact hr, h1, h2⟩

theorem fastest_path_correct (g : Graph) (posf : String → Pos) {v : ℝ} (src dst : String)
    (hv : 0 < v) :
    (fastest_path g src dst posf v = none ↔ ¬ Connected g src dst) ∧
    (∀ p, fastest_path g src dst posf v = some p → IsRoute g src dst p ∧
      ∀ q, IsRoute g src dst q → pathTime posf v p ≤ pathTime posf v q) := by
  have hInv : Inv g posf v src dst [(0, src, [src])] [] := by
    refine ⟨?_, ?_, ?_, rfl, ?_, ?_⟩
    · intro x hx
      simp only [List.mem_singleton] at hx
      subst hx
      exact ⟨rfl, by simp, List.chain'_singleton _, rfl⟩
    · exact Or.inr ⟨(0, src, [src]), List.mem_singleton_self _, rfl, le_refl 0⟩
    · intro n w h nb _
      simp [List.lookup] at h
    · intro n w h x hx
      simp [List.lookup] at h
    · intro x hx
      simp only [List.mem_singleton] at hx
      subst hx
      show src ∈ cands g src
      exact Finset.mem_insert_self _ _
  have hMeas : measureQV g src [(0, src, [src])] [] < fpFuel g src := by
    rw [measureQV, fpFuel]
    have hfil : ((cands g src).filter
        (fun n => (List.lookup n ([] : List (String × ℝ))).isNone)) = cands g src := by
      apply Finset.filter_true_of_mem
      intro n _
      rfl
    rw [hfil]
    simp only [List.length_singleton]
    omega
  obtain ⟨r, hr, h1, h2⟩ := fpLoop_sound g posf src dst hv (fpFuel g src) _ _ hInv hMeas
  have hfp : fastest_path g src dst posf v = r := by
    rw [fastest_path, hr]
    rfl
  refine ⟨⟨?_, ?_⟩, ?_⟩
  · intro hnone
    rw [hfp] at hnone
    exact h1 hnone
  · intro hnc
    rw [hfp]
    cases r with
    | none => rfl
    | some p => exact absurd ⟨p, (h2 p rfl).1⟩ hnc
  · intro p hp
    rw [hfp] at hp
    exact h2 p hp

theorem fp_self (g : Graph) (posf : String → Pos) (v : ℝ) (s : String) :
    fastest_path g s s posf v = some [s] := by
  obtain ⟨k, hk⟩ : ∃ k, fpFuel g s = k + 1 := ⟨fpFuel g s - 1, by rw [fpFuel]; omega⟩
  have hpop : popMin [((0:ℝ), s, [s])] = some ((0, s, [s]), []) := rfl
  rw [fastest_path, hk, fpLoop_succ_pop g posf v s k _ _ 0 s [s] [] hpop, if_pos rfl]
  rfl

theorem fpLoop_path_ne_nil (g : Graph) (posf : String → Pos) (v : ℝ) (dst : String) :
    ∀ (fuel : ℕ) (Q : List Entry) (V : List (String × ℝ)),
      (∀ x ∈ Q, x.2.2 ≠ []) → ∀ p, fpLoop g posf v dst fuel Q V = some (some p) → p ≠ [] := by
  classical
  intro fuel
  induction fuel with
  | zero => intro Q V _ p hp; rw [fpLoop] at hp; exact absurd hp (by simp)
  | succ fuel ih =>
    intro Q V hQ p hp
    cases hpop : popMin Q with
    | none =>
      rw [fpLoop_succ_empty g posf v dst fuel Q V hpop] at hp
      exact absurd hp (by simp)
    | some pr =>
      obtain ⟨⟨t, node, q⟩, rest⟩ := pr
      have hperm := popMin_perm hpop
      have hqmem : (t, node, q) ∈ Q := hperm.mem_iff.mpr (List.mem_cons_self _ _)
      have hrest : ∀ x ∈ rest, x ∈ Q := fun x hx =>
        hperm.mem_iff.mpr (List.mem_cons_of_mem _ hx)
      rw [fpLoop_succ_pop g posf v dst fuel Q V t node q rest hpop] at hp
      by_cases hdst : node = dst
      · rw [if_pos hdst] at hp
        have hqp : q = p := Option.some.inj (Option.some.inj hp)
        rw [← hqp]
        exact hQ _ hqmem
      · rw [if_neg hdst] at hp
        by_cases hvis : visCheck V node t
        · rw [if_pos hvis] at hp
          exact ih rest V (fun x hx => hQ x (hrest x hx)) p hp
        · rw [if_neg hvis] at hp
          refine ih _ _ ?_ p hp
          intro x hx
          rcases List.mem_append.mp hx with hxp | hxr
          · rw [List.mem_map] at hxp
            obtain ⟨nb, _, hxe⟩ := hxp
            rw [← hxe]
            show q ++ [nb] ≠ []
            simp
          · exact hQ x (hrest x hxr)

theorem fastest_path_ne_nil {g : Graph} {posf : String → Pos} {v : ℝ} {src dst : String}
    {p : List String} (h : fastest_path g src dst posf v = some p) : p ≠ [] := by
  rw [fastest_path] at h
  cases hr : fpLoop g posf v dst (fpFuel g src) [(0, src, [src])] [] with
  | none => rw [hr] at h; exact absurd h (by simp)
  | some ro =>
    rw [hr] at h
    cases ro with
    | none => exact absurd h (by simp)
    | some q =>
      have hqp : q = p := by simpa using h
      rw [← hqp]
      refine fpLoop_path_ne_nil g posf v dst _ _ _ ?_ q hr
      intro x hx
      simp only [List.mem_singleton] at hx
      rw [hx]
      show ([src] : List String) ≠ []
      simp

/-- C2: whenever fastest_path returns a path, its total travel time (sum of
Euclidean leg distances divided by the ship speed) is at most the total time
of every edge-path from start to end in the graph. -/
theorem c2_returned_path_time_minimal (g : Graph) (posf : String → Pos) (v : ℝ)
    (src dst : String) (p q : List String) (hv : 0 < v)
    (hp : fastest_path g src dst posf v = some p)
    (hq : IsRoute g src dst q) :
    pathTime posf v p ≤ pathTime posf v q :=
  ((fastest_path_correct g posf src dst hv).2 p hp).2 q hq

theorem c2_returned_path_time_minimal_witness :
    (0:ℝ) < 1 ∧
    fastest_path [] "A" "A" (fun _ => ((0:ℝ), (0:ℝ))) 1 = some ["A"] ∧
    IsRoute [] "A" "A" ["A"] ∧
    pathTime (fun _ => ((0:ℝ), (0:ℝ))) 1 ["A"] ≤
      pathTime (fun _ => ((0:ℝ), (0:ℝ))) 1 ["A"] := by
  have hroute : IsRoute [] "A" "A" ["A"] := ⟨rfl, by simp, List.chain'_singleton _⟩
  have hfp : fastest_path [] "A" "A" (fun _ => ((0:ℝ), (0:ℝ))) 1 = some ["A"] :=
    fp_self [] _ 1 "A"
  exact ⟨by norm_num, hfp, hroute,
    c2_returned_path_time_minimal [] _ 1 "A" "A" ["A"] ["A"] (by norm_num) hfp hroute⟩

/-- C3: fastest_path returns either a path whose first element is the start
and whose last element is the end, or None, and it returns None exactly when
no edge-path connects start to end. -/
theorem c3_endpoints_and_unreachable (g : Graph) (posf : String → Pos) (v : ℝ)
    (src dst : String) (hv : 0 < v) :
    (∀ p, fastest_path g src dst posf v = some p →
      p.head? = some src ∧ p.getLast? = some dst) ∧
    (fastest_path g src dst posf v = none ↔ ¬ Connected g src dst) := by
  have h := fastest_path_correct g posf src dst hv
  refine ⟨?_, h.1⟩
  intro p hp
  obtain ⟨⟨h1, h2, _⟩, _⟩ := h.2 p hp
  exact ⟨h1, h2⟩

theorem c3_endpoints_and_unreachable_witness :
    (0:ℝ) < 1 ∧
    ¬ Connected [] "A" "B" ∧
    fastest_path [] "A" "B" (fun _ => ((0:ℝ), (0:ℝ))) 1 = none := by
  have hnc : ¬ Connected [] "A" "B" := by
    rintro ⟨p, hh, hl, hc⟩
    cases p with
    | nil => simp at hh
    | cons a r =>
      simp only [List.head?_cons, Option.some.injEq] at hh
      cases r with
      | nil =>
        simp only [List.getLast?_singleton, Option.some.injEq] at hl
        rw [hh] at hl
        exact absurd hl (by decide)
      | cons b r2 =>
        have hb : b ∈ gget [] a := (List.chain'_cons.mp hc).1
        simp [gget, List.lookup] at hb
  exact ⟨by norm_num, hnc,
    (c3_endpoints_and_unreachable [] (fun _ => ((0:ℝ), (0:ℝ))) 1 "A" "B"
      (by norm_num)).2.mpr hnc⟩

/-- C10: fastest_path called with start equal to end returns the singleton
path [start] for every graph, positions map and speed, even when the start
has no adjacent edges. -/
theorem c10_start_eq_goal (g : Graph) (posf : String → Pos) (v : ℝ) (s : String) :
    fastest_path g s s posf v = some [s] :=
  fp_self g posf v s

theorem gget_addEdge_self (g : Graph) (a b : String) :
    gget (addEdge g a b) a = gget g a ++ [b] := by
  induction g with
  | nil =>
    show gget [(a, [b])] a = gget [] a ++ [b]
    rw [gget, lookup_cons_self]
    rfl
  | cons kv rest ih =>
    obtain ⟨k, vs⟩ := kv
    simp only [addEdge]
    by_cases hk : k = a
    · rw [if_pos hk]
      subst hk
      rw [gget, lookup_cons_self, gget, lookup_cons_self]
      rfl
    · rw [if_neg hk]
      have hak : a ≠ k := fun h2 => hk h2.symm
      rw [gget, lookup_cons_ne hak, gget, lookup_cons_ne hak]
      exact ih

theorem gget_addEdge_other (g : Graph) (a b n : String) (h : n ≠ a) :
    gget (addEdge g a b) n = gget g n := by
  induction g with
  | nil =>
    show gget [(a, [b])] n = gget [] n
    rw [gget, lookup_cons_ne h]
    rfl
  | cons kv rest ih =>
    obtain ⟨k, vs⟩ := kv
    simp only [addEdge]
    by_cases hk : k = a
    · rw [if_pos hk]
      subst hk
      have hn : n ≠ k := h
      rw [gget, lookup_cons_ne hn, gget, lookup_cons_ne hn]
    · rw [if_neg hk]
      by_cases hn : n = k
      · subst hn
        rw [gget, lookup_cons_self, gget, lookup_cons_self]
      · rw [gget, lookup_cons_ne hn, gget, lookup_cons_ne hn]
        exact ih

theorem addEdge_mem_mono {g : Graph} {n x : String} (a b : String) (h : x ∈ gget g n) :
    x ∈ gget (addEdge g a b) n := by
  by_cases hna : n = a
  · subst hna
    rw [gget_addEdge_self]
    exact List.mem_append_left _ h
  · rw [gget_addEdge_other g a b n hna]
    exact h

theorem foldl_gget_mono (routes : List (String × String)) :
    ∀ (g0 : Graph) (n x : String), x ∈ gget g0 n →
      x ∈ gget (routes.foldl (fun g ab => addEdge (addEdge g ab.1 ab.2) ab.2 ab.1) g0) n := by
  induction routes with
  | nil => intro g0 n x h; exact h
  | cons r rs ih =>
    intro g0 n x h
    rw [List.foldl_cons]
    exact ih _ n x (addEdge_mem_mono _ _ (addEdge_mem_mono _ _ h))

theorem foldl_edge_mem (a b : String) : ∀ (routes : List (String × String)) (g0 : Graph),
    (a, b) ∈ routes →
    b ∈ gget (routes.foldl (fun g ab => addEdge (addEdge g ab.1 ab.2) ab.2 ab.1) g0) a ∧
    a ∈ gget (routes.foldl (fun g ab => addEdge (addEdge g ab.1 ab.2) ab.2 ab.1) g0) b := by
  intro routes
  induction routes with
  | nil => intro g0 h; simp at h
  | cons r rs ih =>
    intro g0 h
    rw [List.foldl_cons]
    rcases List.mem_cons.mp h with hr | hrs
    · rw [← hr]
      constructor
      · apply foldl_gget_mono
        apply addEdge_mem_mono
        rw [gget_addEdge_self]
        exact List.mem_append_right _ (List.mem_singleton_self b)
      · apply foldl_gget_mono
        rw [gget_addEdge_self]
        exact List.mem_append_right _ (List.mem_singleton_self a)
    · exact ih _ hrs

/-- C8: the driver's adjacency construction is symmetric: every route (a, b)
puts b into the adjacency list of a and a into the adjacency list of b. -/
theorem c8_adjacency_symmetric (routes : List (String × String)) (a b : String)
    (h : (a, b) ∈ routes) :
    b ∈ gget (buildGraph routes) a ∧ a ∈ gget (buildGraph routes) b := by
  rw [buildGraph]
  exact foldl_edge_mem a b routes [] h

theorem c8_adjacency_symmetric_witness :
    ("A", "B") ∈ [("A", "B")] ∧
    "B" ∈ gget (buildGraph [("A", "B")]) "A" ∧
    "A" ∈ gget (buildGraph [("A", "B")]) "B" := by
  have h : ("A", "B") ∈ [("A", "B")] := List.mem_singleton_self _
  exact ⟨h, c8_adjacency_symmetric [("A", "B")] "A" "B" h⟩

theorem setupShips_filterMap (g : Graph) (planets : String → Pos) :
    ∀ (data : List ShipData) (acc : List Ship),
      data.foldl (fun ships d =>
        match fastest_path g d.start d.dest planets d.speed with
        | some p =>
          if p.isEmpty then ships
          else ships ++ [(set_path (mkShip d.name (planets d.start) d.speed) (p.map planets)).1]
        | none => ships) acc = acc ++ data.filterMap (mkActive g planets) := by
  intro data
  induction data with
  | nil => intro acc; simp
  | cons d ds ih =>
    intro acc
    cases hfp : fastest_path g d.start d.dest planets d.speed with
    | none =>
      have hmk : mkActive g planets d = none := by rw [mkActive, hfp]
      simp only [List.foldl_cons, List.filterMap_cons, hmk, hfp]
      exact ih acc
    | some p =>
      have hmk : mkActive g planets d =
          (if p.isEmpty then none
           else some ((set_path (mkShip d.name (planets d.start) d.speed)
             (p.map planets)).1)) := by
        rw [mkActive, hfp]
      by_cases he : p.isEmpty = true
      · rw [if_pos he] at hmk
        simp only [List.foldl_cons, List.filterMap_cons, hmk, hfp, if_pos he]
        exact ih acc
      · rw [if_neg he] at hmk
        simp only [List.foldl_cons, List.filterMap_cons, hmk, hfp, if_neg he]
        rw [ih]
        simp

/-- C7: the ships list the driver simulates is exactly, in order, the
per-agent outcome of routing each configured agent independently: an agent
whose fastest_path returns no path contributes nothing (it is never set_path
and never enters the ticked list), every routable agent is kept, and one
agent's failure does not affect the others or abort the run. -/
theorem c7_driver_excludes_unroutable (g : Graph) (planets : String → Pos)
    (data : List ShipData) :
    setupShips g planets data = data.filterMap (mkActive g planets) ∧
    ∀ d : ShipData, (mkActive g planets d = none ↔
      fastest_path g d.start d.dest planets d.speed = none) := by
  constructor
  · rw [setupShips]
    rw [setupShips_filterMap g planets data []]
    simp
  · intro d
    constructor
    · intro h
      cases hfp : fastest_path g d.start d.dest planets d.speed with
      | none => rfl
      | some p =>
        exfalso
        have hne := fastest_path_ne_nil hfp
        have he : p.isEmpty ≠ true := by
          intro hemp
          exact hne (List.isEmpty_iff.mp hemp)
        rw [mkActive, hfp] at h
        have h2 : (if p.isEmpty = true then none
            else some ((set_path (mkShip d.name (planets d.start) d.speed)
              (p.map planets)).1)) = none := h
        rw [if_neg he] at h2
        exact absurd h2 (by simp)
    · intro h
      rw [mkActive, h]

end Sim
